import Mathlib

/-!
# Verification of the styled-text section extractor

This file embeds the rich-text section extraction routine
`extractRichTextSection_` of the repository (together with the data model it
operates on: a styled text is a plain text paired with a list of style runs)
and proves the specified properties about it.

Modelling conventions:

* JS strings are sequences of UTF-16 code units; we model the text as
  `List Char` indexed by `Nat`.
* A boundary pattern is modelled as a literal string (`List Char`); matching a
  pattern against a text means finding the first occurrence of that string,
  exactly the "first occurrence" semantics the routine relies on
  (`text.match(re)` followed by `text.indexOf(match[0])`, which coincide for a
  literal first-occurrence matcher).
* The opaque style descriptor attached to a run is a type parameter `σ`: the
  routine copies it without inspecting it, which the parametricity makes
  syntactically evident.
* The host API returns either `null` or a URL string from `run.getLinkUrl()`;
  the JS truthiness test `if (link)` is therefore modelled as presence of the
  optional link.
* Out-of-range character access `text[i]` yields `undefined` in JS and
  `/\s/.test(undefined)` is `false`; `charAt` returns the NUL character
  (not whitespace) out of range, giving the same observable behaviour.
-/

/-- Whitespace test: the character class of the JS regex `\s`
(`/\s/.test(text[i])` in the trimming loops of `extractRichTextSection_`). -/
def isSpace (c : Char) : Bool :=
  c.val = 9 || c.val = 10 || c.val = 11 || c.val = 12 || c.val = 13 ||
  c.val = 32 || c.val = 160 || c.val = 0x1680 ||
  (0x2000 ≤ c.val && c.val ≤ 0x200A) ||
  c.val = 0x2028 || c.val = 0x2029 || c.val = 0x202F || c.val = 0x205F ||
  c.val = 0x3000 || c.val = 0xFEFF

/-- Character access `text[i]`: out of range, JS yields `undefined`, which the
whitespace test rejects; we return NUL, which `isSpace` also rejects. -/
def charAt (text : List Char) (i : Nat) : Char :=
  text.getD i (Char.ofNat 0)

/-- `startsWith needle hay`: the needle occurs at the very beginning of the
haystack. -/
def startsWith : List Char → List Char → Bool
  | [], _ => true
  | _ :: _, [] => false
  | a :: as, b :: bs => a = b && startsWith as bs

/-- `firstIndexOf needle hay`: index of the first occurrence of `needle` in
`hay`, or `none`.  This is JS `hay.indexOf(needle)` (and, for a literal
pattern, also `hay.match(pattern)`'s position). -/
def firstIndexOf (needle hay : List Char) : Option Nat :=
  if startsWith needle hay then some 0
  else
    match hay with
    | [] => none
    | _ :: t => (firstIndexOf needle t).map (· + 1)

/-- A style run of a rich text value: a half-open character range
`[startIndex, endIndex)` carrying an opaque style descriptor (`getTextStyle`)
and an optional link target (`getLinkUrl`). -/
structure StyleRun (σ : Type) where
  startIndex : Nat
  endIndex : Nat
  style : σ
  link : Option String
  deriving DecidableEq, Repr

/-- A styled text value (host `RichTextValue`): plain text (`getText`) plus
style runs (`getRuns`). -/
structure StyledText (σ : Type) where
  text : List Char
  runs : List (StyleRun σ)
  deriving DecidableEq, Repr

/-- Lines 260-264 of the routine: match the start pattern against the whole
text; on success the section starts immediately after the first match
(`text.indexOf(startMatch[0]) + startMatch[0].length`); on failure the routine
returns null. -/
def rawStartIdx (text startPat : List Char) : Option Nat :=
  (firstIndexOf startPat text).map (fun m => m + startPat.length)

/-- Lines 266-274: `endIdx` defaults to `text.length`; if the stop pattern
matches in `afterContent = text.slice(startIdx)`, then
`endIdx = startIdx + afterContent.indexOf(stopMatch[0])`. -/
def rawEndIdx (text stopPat : List Char) (startIdx : Nat) : Nat :=
  match firstIndexOf stopPat (text.drop startIdx) with
  | some s => startIdx + s
  | none => text.length

/-- One step per unit of fuel of the loop
`while (startIdx < endIdx && /\s/.test(text[startIdx])) startIdx++`
(lines 279-281).  Each iteration raises `startIdx` by one while keeping
`startIdx < endIdx`, so the loop runs at most `endIdx - startIdx` times;
`trimLeft` supplies exactly that fuel. -/
def trimLeftGo (text : List Char) (endIdx : Nat) : Nat → Nat → Nat
  | 0, startIdx => startIdx
  | fuel + 1, startIdx =>
    if startIdx < endIdx && isSpace (charAt text startIdx) then
      trimLeftGo text endIdx fuel (startIdx + 1)
    else startIdx

/-- Lines 279-281: advance `startIdx` past whitespace, staying below
`endIdx`. -/
def trimLeft (text : List Char) (startIdx endIdx : Nat) : Nat :=
  trimLeftGo text endIdx (endIdx - startIdx) startIdx

/-- One step per unit of fuel of the loop
`while (endIdx > startIdx && /\s/.test(text[endIdx - 1])) endIdx--`
(lines 282-284); the loop runs at most `endIdx - startIdx` times and
`trimRight` supplies exactly that fuel. -/
def trimRightGo (text : List Char) (startIdx : Nat) : Nat → Nat → Nat
  | 0, endIdx => endIdx
  | fuel + 1, endIdx =>
    if startIdx < endIdx && isSpace (charAt text (endIdx - 1)) then
      trimRightGo text startIdx fuel (endIdx - 1)
    else endIdx

/-- Lines 282-284: retreat `endIdx` past whitespace, staying above
`startIdx`. -/
def trimRight (text : List Char) (startIdx endIdx : Nat) : Nat :=
  trimRightGo text startIdx (endIdx - startIdx) endIdx

/-- Lines 297-316, body of the per-run loop: clip the run to the section
`[startIdx, endIdx)`; if the overlap is non-empty, emit it re-based to the
substring's coordinates with the style descriptor copied unchanged and the
link copied when present; otherwise emit nothing. -/
def clipRun (startIdx endIdx : Nat) (run : StyleRun σ) : Option (StyleRun σ) :=
  let overlapStart := max run.startIndex startIdx
  let overlapEnd := min run.endIndex endIdx
  if overlapStart < overlapEnd then
    some { startIndex := overlapStart - startIdx, endIndex := overlapEnd - startIdx,
           style := run.style, link := run.link }
  else none

/-- Lines 256-291 of the routine, up to the emptiness test: compute the final
trimmed bounds of the section, or `none` when the start marker is missing or
the trimmed span is empty (`endIdx <= startIdx`). -/
def finalBounds (text startPat stopPat : List Char) : Option (Nat × Nat) :=
  match rawStartIdx text startPat with
  | none => none
  | some s0 =>
    let e0 := rawEndIdx text stopPat s0
    let s := trimLeft text s0 e0
    let e := trimRight text s e0
    if e ≤ s then none else some (s, e)

/-- The routine `extractRichTextSection_(richText, startRe, stopRe)`:
extract the section between the two markers, whitespace-trimmed, rebuilding
the style runs clipped and re-based to the substring (lines 256-318). -/
def extractRichTextSection_ (richText : StyledText σ) (startPat stopPat : List Char) :
    Option (StyledText σ) :=
  match finalBounds richText.text startPat stopPat with
  | none => none
  | some (s, e) =>
    some { text := (richText.text.take e).drop s,
           runs := richText.runs.filterMap (clipRun s e) }

/-- Spec-side notion: the pattern occurs in the text at position `i`. -/
def occursAt (needle text : List Char) (i : Nat) : Prop :=
  startsWith needle (text.drop i) = true

instance (needle text : List Char) (i : Nat) : Decidable (occursAt needle text i) := by
  unfold occursAt; infer_instance

/-- Spec-side notion of trimming a string: remove leading and trailing
whitespace, keeping interior content.  Written independently of the index
manipulation the routine performs. -/
def trimString (l : List Char) : List Char :=
  (((l.dropWhile fun c => isSpace c).reverse.dropWhile fun c => isSpace c)).reverse

/-- Spec-side data model invariant: the style runs are non-overlapping and
sorted by start offset (each run ends no later than the next begins). -/
def runsDisjointSorted (runs : List (StyleRun σ)) : Prop :=
  List.Pairwise (fun a b => a.endIndex ≤ b.startIndex) runs

instance (runs : List (StyleRun σ)) : Decidable (runsDisjointSorted runs) := by
  unfold runsDisjointSorted; infer_instance

-- Sanity checks on the concrete scenario of the spec (removed from claims,
-- used to validate the embedding).
example :
    (extractRichTextSection_ (σ := Nat)
      { text := "1. X Appraiser: Call John at 555-1234. 2. X Taxes: pay".toList,
        runs := [] }
      "1. X Appraiser:".toList "2. X Taxes:".toList).map (fun r => r.text) =
    some "Call John at 555-1234.".toList := by decide

example :
    extractRichTextSection_ (σ := Nat)
      { text := "hello world".toList, runs := [] }
      "absent".toList "2.".toList = none := by decide

example :
    (extractRichTextSection_ (σ := Nat)
      { text := "A: one two  ".toList, runs := [{ startIndex := 0, endIndex := 12, style := 7, link := some "u" }] }
      "A:".toList "B:".toList) =
    some { text := "one two".toList,
           runs := [{ startIndex := 0, endIndex := 7, style := 7, link := some "u" }] } := by decide

/-! ## Lemmas about pattern matching (`startsWith`, `firstIndexOf`) -/

theorem startsWith_length {needle : List Char} : ∀ {hay : List Char},
    startsWith needle hay = true → needle.length ≤ hay.length := by
  induction needle with
  | nil => intro hay _; exact Nat.zero_le _
  | cons a as ih =>
    intro hay h
    cases hay with
    | nil => simp [startsWith] at h
    | cons b bs =>
      simp only [startsWith, Bool.and_eq_true] at h
      have := ih h.2
      simp only [List.length_cons]
      omega

theorem firstIndexOf_occursAt : ∀ {hay needle : List Char} {m : Nat},
    firstIndexOf needle hay = some m → occursAt needle hay m := by
  intro hay
  induction hay with
  | nil =>
    intro needle m h
    unfold firstIndexOf at h
    split at h
    · rename_i hs
      cases h
      simpa [occursAt] using hs
    · simp at h
  | cons c t ih =>
    intro needle m h
    unfold firstIndexOf at h
    split at h
    · rename_i hs
      cases h
      simpa [occursAt] using hs
    · simp only [Option.map_eq_some'] at h
      obtain ⟨m1, hm1, rfl⟩ := h
      have := ih hm1
      simpa [occursAt, List.drop_succ_cons] using this

theorem firstIndexOf_least : ∀ {hay needle : List Char} {m : Nat},
    firstIndexOf needle hay = some m → ∀ j, j < m → ¬ occursAt needle hay j := by
  intro hay
  induction hay with
  | nil =>
    intro needle m h j hj
    unfold firstIndexOf at h
    split at h
    · cases h; omega
    · simp at h
  | cons c t ih =>
    intro needle m h j hj
    unfold firstIndexOf at h
    split at h
    · cases h; omega
    · rename_i hns
      simp only [Option.map_eq_some'] at h
      obtain ⟨m1, hm1, rfl⟩ := h
      cases j with
      | zero =>
        intro hocc
        exact hns (by simpa [occursAt] using hocc)
      | succ j1 =>
        intro hocc
        exact ih hm1 j1 (by omega) (by simpa [occursAt, List.drop_succ_cons] using hocc)

theorem firstIndexOf_complete : ∀ {hay needle : List Char} {j : Nat},
    occursAt needle hay j → ∃ m, firstIndexOf needle hay = some m ∧ m ≤ j := by
  intro hay
  induction hay with
  | nil =>
    intro needle j hocc
    unfold firstIndexOf
    split
    · exact ⟨0, rfl, Nat.zero_le j⟩
    · rename_i hns
      exact absurd (by simpa [occursAt, List.drop_nil] using hocc) hns
  | cons c t ih =>
    intro needle j hocc
    unfold firstIndexOf
    split
    · exact ⟨0, rfl, Nat.zero_le j⟩
    · rename_i hns
      cases j with
      | zero => exact absurd (by simpa [occursAt] using hocc) hns
      | succ j1 =>
        obtain ⟨m1, hm1, hle⟩ := ih (by simpa [occursAt, List.drop_succ_cons] using hocc)
        exact ⟨m1 + 1, by simp [hm1], by omega⟩

theorem firstIndexOf_none_iff {needle hay : List Char} :
    firstIndexOf needle hay = none ↔ ∀ j, ¬ occursAt needle hay j := by
  constructor
  · intro h j hocc
    obtain ⟨m, hm, _⟩ := firstIndexOf_complete hocc
    rw [h] at hm
    cases hm
  · intro h
    cases hf : firstIndexOf needle hay with
    | none => rfl
    | some m => exact absurd (firstIndexOf_occursAt hf) (h m)

theorem firstIndexOf_bound : ∀ {hay needle : List Char} {m : Nat},
    firstIndexOf needle hay = some m → m + needle.length ≤ hay.length := by
  intro hay
  induction hay with
  | nil =>
    intro needle m h
    unfold firstIndexOf at h
    split at h
    · rename_i hs
      cases h
      simpa using startsWith_length hs
    · simp at h
  | cons c t ih =>
    intro needle m h
    unfold firstIndexOf at h
    split at h
    · rename_i hs
      cases h
      simpa using startsWith_length hs
    · simp only [Option.map_eq_some'] at h
      obtain ⟨m1, hm1, rfl⟩ := h
      have := ih hm1
      simp only [List.length_cons]
      omega

/-! ## Lemmas about the raw (pre-trim) section bounds -/

theorem rawStartIdx_le_length {text startPat : List Char} {s0 : Nat}
    (h : rawStartIdx text startPat = some s0) : s0 ≤ text.length := by
  unfold rawStartIdx at h
  simp only [Option.map_eq_some'] at h
  obtain ⟨m, hm, rfl⟩ := h
  exact firstIndexOf_bound hm

theorem rawEndIdx_le_length {text stopPat : List Char} {s0 : Nat}
    (h0 : s0 ≤ text.length) : rawEndIdx text stopPat s0 ≤ text.length := by
  unfold rawEndIdx
  cases hf : firstIndexOf stopPat (text.drop s0) with
  | none => exact Nat.le_refl _
  | some s =>
    have := firstIndexOf_bound hf
    simp only [List.length_drop] at this
    show s0 + s ≤ text.length
    omega

theorem rawEndIdx_ge {text stopPat : List Char} {s0 : Nat}
    (h0 : s0 ≤ text.length) : s0 ≤ rawEndIdx text stopPat s0 := by
  unfold rawEndIdx
  cases hf : firstIndexOf stopPat (text.drop s0) with
  | none => exact h0
  | some s => show s0 ≤ s0 + s; omega

/-! ## Lemmas about the whitespace-trimming loops -/

theorem trimLeftGo_ge (text : List Char) (e : Nat) : ∀ (fuel s : Nat),
    s ≤ trimLeftGo text e fuel s := by
  intro fuel
  induction fuel with
  | zero => intro s; exact Nat.le_refl s
  | succ n ih =>
    intro s
    unfold trimLeftGo
    split
    · exact Nat.le_trans (Nat.le_succ s) (ih (s + 1))
    · exact Nat.le_refl s

theorem trimLeftGo_le (text : List Char) (e : Nat) : ∀ (fuel s : Nat),
    s ≤ e → trimLeftGo text e fuel s ≤ e := by
  intro fuel
  induction fuel with
  | zero => intro s hs; exact hs
  | succ n ih =>
    intro s hs
    unfold trimLeftGo
    split
    · rename_i hc
      simp only [Bool.and_eq_true, decide_eq_true_eq] at hc
      exact ih (s + 1) (by omega)
    · exact hs

theorem trimLeftGo_spaces (text : List Char) (e : Nat) : ∀ (fuel s i : Nat),
    s ≤ i → i < trimLeftGo text e fuel s → isSpace (charAt text i) = true := by
  intro fuel
  induction fuel with
  | zero => intro s i hsi hlt; simp only [trimLeftGo] at hlt; omega
  | succ n ih =>
    intro s i hsi hlt
    unfold trimLeftGo at hlt
    split at hlt
    · rename_i hc
      simp only [Bool.and_eq_true, decide_eq_true_eq] at hc
      rcases Nat.eq_or_lt_of_le hsi with heq | hgt
      · rw [← heq]; exact hc.2
      · exact ih (s + 1) i (by omega) hlt
    · omega

theorem trimLeftGo_stop (text : List Char) (e : Nat) : ∀ (fuel s : Nat),
    e - s ≤ fuel → trimLeftGo text e fuel s < e →
    isSpace (charAt text (trimLeftGo text e fuel s)) = false := by
  intro fuel
  induction fuel with
  | zero => intro s hfuel hlt; simp only [trimLeftGo] at hlt ⊢; omega
  | succ n ih =>
    intro s hfuel hlt
    unfold trimLeftGo at hlt ⊢
    split at hlt
    · rename_i hc
      simp only [Bool.and_eq_true, decide_eq_true_eq] at hc
      rw [if_pos (by simp only [Bool.and_eq_true, decide_eq_true_eq]; exact hc)]
      exact ih (s + 1) (by omega) hlt
    · rename_i hc
      rw [if_neg hc]
      simp only [Bool.and_eq_true, decide_eq_true_eq, not_and] at hc
      cases hs : isSpace (charAt text s) with
      | false => rfl
      | true => exact absurd hs (by simpa using hc hlt)

theorem trimLeftGo_all (text : List Char) (e : Nat) : ∀ (fuel s : Nat),
    e - s ≤ fuel → s ≤ e →
    (∀ i, s ≤ i → i < e → isSpace (charAt text i) = true) →
    trimLeftGo text e fuel s = e := by
  intro fuel
  induction fuel with
  | zero => intro s hfuel hse _; simp only [trimLeftGo]; omega
  | succ n ih =>
    intro s hfuel hse hsp
    unfold trimLeftGo
    split
    · rename_i hc
      simp only [Bool.and_eq_true, decide_eq_true_eq] at hc
      exact ih (s + 1) (by omega) (by omega) (fun i h1 h2 => hsp i (by omega) h2)
    · rename_i hc
      simp only [Bool.and_eq_true, decide_eq_true_eq, not_and] at hc
      rcases Nat.eq_or_lt_of_le hse with heq | hgt
      · exact heq
      · exact absurd (hsp s (Nat.le_refl s) hgt) (by simpa using hc hgt)

theorem trimRightGo_le (text : List Char) (s : Nat) : ∀ (fuel e : Nat),
    trimRightGo text s fuel e ≤ e := by
  intro fuel
  induction fuel with
  | zero => intro e; exact Nat.le_refl e
  | succ n ih =>
    intro e
    unfold trimRightGo
    split
    · exact Nat.le_trans (ih (e - 1)) (Nat.sub_le e 1)
    · exact Nat.le_refl e

theorem trimRightGo_ge (text : List Char) (s : Nat) : ∀ (fuel e : Nat),
    s ≤ e → s ≤ trimRightGo text s fuel e := by
  intro fuel
  induction fuel with
  | zero => intro e he; exact he
  | succ n ih =>
    intro e he
    unfold trimRightGo
    split
    · rename_i hc
      simp only [Bool.and_eq_true, decide_eq_true_eq] at hc
      exact ih (e - 1) (by omega)
    · exact he

theorem trimRightGo_spaces (text : List Char) (s : Nat) : ∀ (fuel e i : Nat),
    trimRightGo text s fuel e ≤ i → i < e → isSpace (charAt text i) = true := by
  intro fuel
  induction fuel with
  | zero => intro e i hge hlt; simp only [trimRightGo] at hge; omega
  | succ n ih =>
    intro e i hge hlt
    unfold trimRightGo at hge
    split at hge
    · rename_i hc
      simp only [Bool.and_eq_true, decide_eq_true_eq] at hc
      rcases Nat.lt_or_ge i (e - 1) with hlt1 | hge1
      · exact ih (e - 1) i hge hlt1
      · have : i = e - 1 := by omega
        rw [this]; exact hc.2
    · omega

theorem trimRightGo_stop (text : List Char) (s : Nat) : ∀ (fuel e : Nat),
    e - s ≤ fuel → s < trimRightGo text s fuel e →
    isSpace (charAt text (trimRightGo text s fuel e - 1)) = false := by
  intro fuel
  induction fuel with
  | zero => intro e hfuel hlt; simp only [trimRightGo] at hlt ⊢; omega
  | succ n ih =>
    intro e hfuel hlt
    unfold trimRightGo at hlt ⊢
    split at hlt
    · rename_i hc
      simp only [Bool.and_eq_true, decide_eq_true_eq] at hc
      rw [if_pos (by simp only [Bool.and_eq_true, decide_eq_true_eq]; exact hc)]
      exact ih (e - 1) (by omega) hlt
    · rename_i hc
      rw [if_neg hc]
      simp only [Bool.and_eq_true, decide_eq_true_eq, not_and] at hc
      cases hs : isSpace (charAt text (e - 1)) with
      | false => rfl
      | true => exact absurd hs (by simpa using hc hlt)

theorem trimRightGo_all (text : List Char) (s : Nat) : ∀ (fuel e : Nat),
    e - s ≤ fuel → s ≤ e →
    (∀ i, s ≤ i → i < e → isSpace (charAt text i) = true) →
    trimRightGo text s fuel e = s := by
  intro fuel
  induction fuel with
  | zero => intro e hfuel hse _; simp only [trimRightGo]; omega
  | succ n ih =>
    intro e hfuel hse hsp
    unfold trimRightGo
    split
    · rename_i hc
      simp only [Bool.and_eq_true, decide_eq_true_eq] at hc
      exact ih (e - 1) (by omega) (by omega) (fun i h1 h2 => hsp i h1 (by omega))
    · rename_i hc
      simp only [Bool.and_eq_true, decide_eq_true_eq, not_and] at hc
      rcases Nat.eq_or_lt_of_le hse with heq | hgt
      · omega
      · exact absurd (hsp (e - 1) (by omega) (by omega)) (by simpa using hc hgt)

theorem trimLeft_ge (text : List Char) (s e : Nat) : s ≤ trimLeft text s e :=
  trimLeftGo_ge text e (e - s) s

theorem trimLeft_le (text : List Char) {s e : Nat} (h : s ≤ e) : trimLeft text s e ≤ e :=
  trimLeftGo_le text e (e - s) s h

theorem trimLeft_spaces (text : List Char) {s e i : Nat} (h1 : s ≤ i)
    (h2 : i < trimLeft text s e) : isSpace (charAt text i) = true :=
  trimLeftGo_spaces text e (e - s) s i h1 h2

theorem trimLeft_stop (text : List Char) {s e : Nat} (h : trimLeft text s e < e) :
    isSpace (charAt text (trimLeft text s e)) = false :=
  trimLeftGo_stop text e (e - s) s (Nat.le_refl _) h

theorem trimLeft_all (text : List Char) {s e : Nat} (hse : s ≤ e)
    (hsp : ∀ i, s ≤ i → i < e → isSpace (charAt text i) = true) :
    trimLeft text s e = e :=
  trimLeftGo_all text e (e - s) s (Nat.le_refl _) hse hsp

theorem trimRight_le (text : List Char) (s e : Nat) : trimRight text s e ≤ e :=
  trimRightGo_le text s (e - s) e

theorem trimRight_ge (text : List Char) {s e : Nat} (h : s ≤ e) : s ≤ trimRight text s e :=
  trimRightGo_ge text s (e - s) e h

theorem trimRight_spaces (text : List Char) {s e i : Nat} (h1 : trimRight text s e ≤ i)
    (h2 : i < e) : isSpace (charAt text i) = true :=
  trimRightGo_spaces text s (e - s) e i h1 h2

theorem trimRight_stop (text : List Char) {s e : Nat} (h : s < trimRight text s e) :
    isSpace (charAt text (trimRight text s e - 1)) = false :=
  trimRightGo_stop text s (e - s) e (Nat.le_refl _) h

theorem trimRight_all (text : List Char) {s e : Nat} (hse : s ≤ e)
    (hsp : ∀ i, s ≤ i → i < e → isSpace (charAt text i) = true) :
    trimRight text s e = s :=
  trimRightGo_all text s (e - s) e (Nat.le_refl _) hse hsp

/-! ## Inversion of the bounds computation and slice lemmas -/

theorem finalBounds_eq_some {text sp tp : List Char} {s e : Nat}
    (h : finalBounds text sp tp = some (s, e)) :
    ∃ s0, rawStartIdx text sp = some s0 ∧
      s = trimLeft text s0 (rawEndIdx text tp s0) ∧
      e = trimRight text s (rawEndIdx text tp s0) ∧
      s0 ≤ s ∧ s < e ∧ e ≤ rawEndIdx text tp s0 ∧
      rawEndIdx text tp s0 ≤ text.length := by
  unfold finalBounds at h
  cases hr : rawStartIdx text sp with
  | none => rw [hr] at h; cases h
  | some s0 =>
    rw [hr] at h
    simp only [Option.ite_none_left_eq_some, Option.some.injEq, Prod.mk.injEq, not_le] at h
    obtain ⟨hlt, h1, h2⟩ := h
    have hs0len : s0 ≤ text.length := rawStartIdx_le_length hr
    have he0len : rawEndIdx text tp s0 ≤ text.length := rawEndIdx_le_length hs0len
    have hs0e0 : s0 ≤ rawEndIdx text tp s0 := rawEndIdx_ge hs0len
    refine ⟨s0, rfl, h1.symm, ?_, ?_, ?_, ?_, he0len⟩
    · rw [← h1, ← h2]
    · rw [← h1]; exact trimLeft_ge text s0 _
    · rw [← h1, ← h2]; exact hlt
    · rw [← h2]; exact trimRight_le text _ _

theorem extract_of_bounds {rt : StyledText σ} {sp tp : List Char} {s e : Nat}
    (h : finalBounds rt.text sp tp = some (s, e)) :
    extractRichTextSection_ rt sp tp =
      some { text := (rt.text.take e).drop s,
             runs := rt.runs.filterMap (clipRun s e) } := by
  unfold extractRichTextSection_
  rw [h]

theorem extract_none_iff_bounds {rt : StyledText σ} {sp tp : List Char} :
    extractRichTextSection_ rt sp tp = none ↔ finalBounds rt.text sp tp = none := by
  unfold extractRichTextSection_
  cases finalBounds rt.text sp tp with
  | none => simp
  | some p => cases p; simp

theorem length_slice {l : List Char} {s e : Nat} (he : e ≤ l.length) :
    ((l.take e).drop s).length = e - s := by
  simp only [List.length_drop, List.length_take]
  omega

theorem charAt_slice {l : List Char} {s e i : Nat} (hi : s + i < e) (he : e ≤ l.length) :
    charAt ((l.take e).drop s) i = charAt l (s + i) := by
  have hlen : ((l.take e).drop s).length = e - s := length_slice he
  have hib : i < ((l.take e).drop s).length := by omega
  unfold charAt
  rw [List.getD_eq_getElem _ _ hib, List.getD_eq_getElem _ _ (by omega : s + i < l.length)]
  rw [List.getElem_drop, List.getElem_take]

theorem clipRun_eq_some {σ : Type} {s e : Nat} {a r : StyleRun σ} :
    clipRun s e a = some r ↔
      max a.startIndex s < min a.endIndex e ∧
      r = { startIndex := max a.startIndex s - s, endIndex := min a.endIndex e - s,
            style := a.style, link := a.link } := by
  simp only [clipRun]
  split
  · rename_i h
    constructor
    · intro hs
      exact ⟨h, (Option.some.inj hs).symm⟩
    · intro hr
      rw [hr.2]
  · rename_i h
    constructor
    · intro hs; cases hs
    · intro hr; exact absurd hr.1 h

theorem clipRun_eq_none {σ : Type} {s e : Nat} {a : StyleRun σ} :
    clipRun s e a = none ↔ ¬ max a.startIndex s < min a.endIndex e := by
  simp only [clipRun]
  split
  · rename_i h
    refine ⟨fun hs => ?_, fun hn => absurd h hn⟩
    cases hs
  · rename_i h
    exact ⟨fun _ => h, fun _ => rfl⟩

/-! ## Claim theorems -/

/-- Claim C9: the two whitespace-trimming loops strictly shrink the interval
between the raw bounds and stop without the indices crossing each other, and
the interval stays bounded by the source text length; together with the fact
that every function here is a total Lean definition, the routine terminates on
every input. -/
theorem extract_trim_terminates {σ : Type} (rt : StyledText σ) (sp tp : List Char)
    (s0 : Nat) (h0 : rawStartIdx rt.text sp = some s0) :
    s0 ≤ trimLeft rt.text s0 (rawEndIdx rt.text tp s0) ∧
    trimLeft rt.text s0 (rawEndIdx rt.text tp s0) ≤
      trimRight rt.text (trimLeft rt.text s0 (rawEndIdx rt.text tp s0))
        (rawEndIdx rt.text tp s0) ∧
    trimRight rt.text (trimLeft rt.text s0 (rawEndIdx rt.text tp s0))
        (rawEndIdx rt.text tp s0) ≤ rawEndIdx rt.text tp s0 ∧
    rawEndIdx rt.text tp s0 ≤ rt.text.length := by
  have hs0 : s0 ≤ rt.text.length := rawStartIdx_le_length h0
  have he0 : rawEndIdx rt.text tp s0 ≤ rt.text.length := rawEndIdx_le_length hs0
  have hge : s0 ≤ rawEndIdx rt.text tp s0 := rawEndIdx_ge hs0
  have h2 : trimLeft rt.text s0 (rawEndIdx rt.text tp s0) ≤ rawEndIdx rt.text tp s0 :=
    trimLeft_le rt.text hge
  exact ⟨trimLeft_ge rt.text s0 _, trimRight_ge rt.text h2, trimRight_le rt.text _ _, he0⟩

/-- Witness for C9 at a concrete input. -/
theorem extract_trim_terminates_witness :
    rawStartIdx ['a', ' ', 'b'] ['a'] = some 1 ∧
    (1 ≤ trimLeft ['a', ' ', 'b'] 1 (rawEndIdx ['a', ' ', 'b'] ['b'] 1) ∧
     trimLeft ['a', ' ', 'b'] 1 (rawEndIdx ['a', ' ', 'b'] ['b'] 1) ≤
       trimRight ['a', ' ', 'b'] (trimLeft ['a', ' ', 'b'] 1 (rawEndIdx ['a', ' ', 'b'] ['b'] 1))
         (rawEndIdx ['a', ' ', 'b'] ['b'] 1) ∧
     trimRight ['a', ' ', 'b'] (trimLeft ['a', ' ', 'b'] 1 (rawEndIdx ['a', ' ', 'b'] ['b'] 1))
         (rawEndIdx ['a', ' ', 'b'] ['b'] 1) ≤ rawEndIdx ['a', ' ', 'b'] ['b'] 1 ∧
     rawEndIdx ['a', ' ', 'b'] ['b'] 1 ≤ (['a', ' ', 'b'] : List Char).length) :=
  ⟨by decide,
   extract_trim_terminates (σ := Nat) { text := ['a', ' ', 'b'], runs := [] }
     ['a'] ['b'] 1 (by decide)⟩

/-- Claim C8: the routine is deterministic and stateless across calls — two
invocations with identical inputs give identical results.  (In the embedding
the routine is a function of exactly its three arguments; the source reads no
mutable state: its regexes carry no `g` flag, so even `lastIndex` is
unused.) -/
theorem extract_deterministic {σ : Type} (rt1 rt2 : StyledText σ)
    (sp1 sp2 tp1 tp2 : List Char) (h1 : rt1 = rt2) (h2 : sp1 = sp2) (h3 : tp1 = tp2) :
    extractRichTextSection_ rt1 sp1 tp1 = extractRichTextSection_ rt2 sp2 tp2 := by
  subst h1; subst h2; subst h3; rfl

/-- Witness for C8 at a concrete input. -/
theorem extract_deterministic_witness :
    extractRichTextSection_ (σ := Nat) { text := ['a', 'x', 'b'], runs := [] } ['a'] ['b'] =
    extractRichTextSection_ (σ := Nat) { text := ['a', 'x', 'b'], runs := [] } ['a'] ['b'] :=
  extract_deterministic { text := ['a', 'x', 'b'], runs := [] }
    { text := ['a', 'x', 'b'], runs := [] } ['a'] ['a'] ['b'] ['b'] rfl rfl rfl

/-- Claim C10: a non-absent result has non-empty text whose first and last
characters are non-whitespace. -/
theorem extract_result_trimmed {σ : Type} (rt res : StyledText σ) (sp tp : List Char)
    (h : extractRichTextSection_ rt sp tp = some res) :
    res.text ≠ [] ∧ isSpace (charAt res.text 0) = false ∧
    isSpace (charAt res.text (res.text.length - 1)) = false := by
  cases hb : finalBounds rt.text sp tp with
  | none =>
    rw [extract_none_iff_bounds.mpr hb] at h
    cases h
  | some p =>
    obtain ⟨s, e⟩ := p
    rw [extract_of_bounds hb] at h
    obtain rfl := Option.some.inj h
    obtain ⟨s0, hr, hsdef, hedef, hs0s, hse, hee0, he0len⟩ := finalBounds_eq_some hb
    have helen : e ≤ rt.text.length := Nat.le_trans hee0 he0len
    have hlen : ((rt.text.take e).drop s).length = e - s := length_slice helen
    refine ⟨?_, ?_, ?_⟩
    · intro hnil
      have h0 : (rt.text.take e).drop s = ([] : List Char) := hnil
      rw [h0] at hlen
      simp only [List.length_nil] at hlen
      omega
    · have hc : charAt ((rt.text.take e).drop s) 0 = charAt rt.text s := by
        have := charAt_slice (l := rt.text) (s := s) (e := e) (i := 0) (by omega) helen
        simpa using this
      show isSpace (charAt ((rt.text.take e).drop s) 0) = false
      rw [hc, hsdef]
      exact trimLeft_stop rt.text (by rw [← hsdef]; omega)
    · show isSpace (charAt ((rt.text.take e).drop s)
        (((rt.text.take e).drop s).length - 1)) = false
      have hc : charAt ((rt.text.take e).drop s) (((rt.text.take e).drop s).length - 1) =
          charAt rt.text (e - 1) := by
        rw [hlen]
        have := charAt_slice (l := rt.text) (s := s) (e := e) (i := e - s - 1)
          (by omega) helen
        rw [this]
        congr 1
        omega
      rw [hc, hedef]
      have : s < trimRight rt.text s (rawEndIdx rt.text tp s0) := by rw [← hedef]; omega
      exact trimRight_stop rt.text this

/-- Witness for C10 at a concrete input. -/
theorem extract_result_trimmed_witness :
    ({ text := ['x'], runs := [] } : StyledText Nat).text ≠ [] ∧
    isSpace (charAt ({ text := ['x'], runs := [] } : StyledText Nat).text 0) = false ∧
    isSpace (charAt ({ text := ['x'], runs := [] } : StyledText Nat).text
      (({ text := ['x'], runs := [] } : StyledText Nat).text.length - 1)) = false :=
  extract_result_trimmed { text := ['a', ' ', 'x', ' '], runs := [] }
    { text := ['x'], runs := [] } ['a'] ['q'] (by decide)

/-- Claim C3: every style run lying fully inside the trimmed extraction range
`[s, e)` yields an output run with the same style descriptor and link target,
its offsets shifted by exactly `-s`. -/
theorem extract_preserves_inner_runs {σ : Type} (rt : StyledText σ) (sp tp : List Char)
    (s e : Nat) (run : StyleRun σ)
    (hb : finalBounds rt.text sp tp = some (s, e))
    (hmem : run ∈ rt.runs) (hvalid : run.startIndex < run.endIndex)
    (hlo : s ≤ run.startIndex) (hhi : run.endIndex ≤ e) :
    ∃ res, extractRichTextSection_ rt sp tp = some res ∧
      ({ startIndex := run.startIndex - s, endIndex := run.endIndex - s,
         style := run.style, link := run.link } : StyleRun σ) ∈ res.runs := by
  refine ⟨_, extract_of_bounds hb, ?_⟩
  apply List.mem_filterMap.mpr
  refine ⟨run, hmem, ?_⟩
  unfold clipRun
  rw [Nat.max_eq_left hlo, Nat.min_eq_left hhi, if_pos hvalid]

/-- Witness for C3 at a concrete input. -/
theorem extract_preserves_inner_runs_witness :
    ∃ res,
      extractRichTextSection_ (σ := Nat)
        { text := ['a', 'u', 'v', 'b'],
          runs := [{ startIndex := 1, endIndex := 3, style := 5, link := some "url" }] }
        ['a'] ['b'] = some res ∧
      ({ startIndex := 0, endIndex := 2, style := 5, link := some "url" } : StyleRun Nat)
        ∈ res.runs :=
  extract_preserves_inner_runs
    { text := ['a', 'u', 'v', 'b'],
      runs := [{ startIndex := 1, endIndex := 3, style := 5, link := some "url" }] }
    ['a'] ['b'] 1 3 { startIndex := 1, endIndex := 3, style := 5, link := some "url" }
    (by decide) (by decide) (by decide) (by decide) (by decide)

/-- Claim C4: the result's run list is exactly the clipping of the source's
run list; a run whose range meets the extraction range `[s, e)` contributes
exactly one output run covering exactly the overlapping portion re-based by
`-s` with style and link unchanged, and a run with empty overlap contributes
nothing. -/
theorem extract_clips_runs {σ : Type} (rt : StyledText σ) (sp tp : List Char) (s e : Nat)
    (hb : finalBounds rt.text sp tp = some (s, e)) :
    ∃ res, extractRichTextSection_ rt sp tp = some res ∧
      res.runs = rt.runs.filterMap (clipRun s e) ∧
      ∀ run : StyleRun σ,
        ((∃ i, (run.startIndex ≤ i ∧ i < run.endIndex) ∧ s ≤ i ∧ i < e) →
          clipRun s e run =
            some { startIndex := max run.startIndex s - s,
                   endIndex := min run.endIndex e - s,
                   style := run.style, link := run.link }) ∧
        ((¬ ∃ i, (run.startIndex ≤ i ∧ i < run.endIndex) ∧ s ≤ i ∧ i < e) →
          clipRun s e run = none) := by
  refine ⟨_, extract_of_bounds hb, rfl, ?_⟩
  intro run
  constructor
  · rintro ⟨i, ⟨hi1, hi2⟩, hi3, hi4⟩
    have hov : max run.startIndex s < min run.endIndex e := by omega
    unfold clipRun
    rw [if_pos hov]
  · intro hno
    have hov : ¬ max run.startIndex s < min run.endIndex e := by
      intro hlt
      exact hno ⟨max run.startIndex s, by omega, by omega⟩
    unfold clipRun
    rw [if_neg hov]

/-- Witness for C4 at a concrete input (a run partially overlapping the
extraction range is clipped; a disjoint run is dropped). -/
theorem extract_clips_runs_witness :
    ∃ res,
      extractRichTextSection_ (σ := Nat)
        { text := ['a', 'u', 'v', 'b'],
          runs := [{ startIndex := 0, endIndex := 2, style := 4, link := none }] }
        ['a'] ['b'] = some res ∧
      res.runs = List.filterMap (clipRun 1 3)
        [({ startIndex := 0, endIndex := 2, style := 4, link := none } : StyleRun Nat)] ∧
      ∀ run : StyleRun Nat,
        ((∃ i, (run.startIndex ≤ i ∧ i < run.endIndex) ∧ 1 ≤ i ∧ i < 3) →
          clipRun 1 3 run =
            some { startIndex := max run.startIndex 1 - 1,
                   endIndex := min run.endIndex 3 - 1,
                   style := run.style, link := run.link }) ∧
        ((¬ ∃ i, (run.startIndex ≤ i ∧ i < run.endIndex) ∧ 1 ≤ i ∧ i < 3) →
          clipRun 1 3 run = none) :=
  extract_clips_runs
    { text := ['a', 'u', 'v', 'b'],
      runs := [{ startIndex := 0, endIndex := 2, style := 4, link := none }] }
    ['a'] ['b'] 1 3 (by decide)

/-- Claim C6: every run of a non-absent result satisfies
`0 <= start < end <= text.length` over the result's own text (the lower bound
is inherent to `Nat`), and when the source's runs are non-overlapping and
sorted by start offset, so are the result's. -/
theorem extract_result_invariants {σ : Type} (rt res : StyledText σ) (sp tp : List Char)
    (h : extractRichTextSection_ rt sp tp = some res) :
    (∀ r ∈ res.runs, r.startIndex < r.endIndex ∧ r.endIndex ≤ res.text.length) ∧
    (runsDisjointSorted rt.runs → runsDisjointSorted res.runs) := by
  cases hb : finalBounds rt.text sp tp with
  | none =>
    rw [extract_none_iff_bounds.mpr hb] at h
    cases h
  | some p =>
    obtain ⟨s, e⟩ := p
    rw [extract_of_bounds hb] at h
    obtain rfl := Option.some.inj h
    obtain ⟨s0, hr, hsdef, hedef, hs0s, hse, hee0, he0len⟩ := finalBounds_eq_some hb
    have helen : e ≤ rt.text.length := Nat.le_trans hee0 he0len
    have hlen : ((rt.text.take e).drop s).length = e - s := length_slice helen
    constructor
    · intro r hmem
      show r.startIndex < r.endIndex ∧ r.endIndex ≤ ((rt.text.take e).drop s).length
      obtain ⟨a, _, hc⟩ := List.mem_filterMap.mp hmem
      obtain ⟨hov, rfl⟩ := clipRun_eq_some.mp hc
      refine ⟨show max a.startIndex s - s < min a.endIndex e - s by omega, ?_⟩
      show min a.endIndex e - s ≤ ((rt.text.take e).drop s).length
      rw [hlen]
      omega
    · intro hsrc
      show runsDisjointSorted (rt.runs.filterMap (clipRun s e))
      unfold runsDisjointSorted at hsrc ⊢
      rw [List.pairwise_filterMap]
      refine hsrc.imp ?_
      intro a b hab x hx y hy
      obtain ⟨hova, rfl⟩ := clipRun_eq_some.mp (Option.mem_def.mp hx)
      obtain ⟨hovb, rfl⟩ := clipRun_eq_some.mp (Option.mem_def.mp hy)
      show min a.endIndex e - s ≤ max b.startIndex s - s
      omega

/-- Witness for C6 at a concrete input. -/
theorem extract_result_invariants_witness :
    (∀ r ∈ [({ startIndex := 0, endIndex := 1, style := 2, link := none } : StyleRun Nat)],
      r.startIndex < r.endIndex ∧ r.endIndex ≤ (['x'] : List Char).length) ∧
    (runsDisjointSorted [({ startIndex := 0, endIndex := 2, style := 2, link := none } : StyleRun Nat)] →
      runsDisjointSorted [({ startIndex := 0, endIndex := 1, style := 2, link := none } : StyleRun Nat)]) :=
  extract_result_invariants
    { text := ['a', 'x', 'b'],
      runs := [{ startIndex := 0, endIndex := 2, style := 2, link := none }] }
    { text := ['x'], runs := [{ startIndex := 0, endIndex := 1, style := 2, link := none }] }
    ['a'] ['b'] (by decide)

/-- The code's matcher returns exactly the first occurrence position. -/
theorem firstIndexOf_of_first {needle hay : List Char} {m : Nat}
    (hm : occursAt needle hay m) (hfirst : ∀ j, j < m → ¬ occursAt needle hay j) :
    firstIndexOf needle hay = some m := by
  obtain ⟨m1, hm1, hle⟩ := firstIndexOf_complete hm
  rcases Nat.eq_or_lt_of_le hle with heq | hlt
  · rw [heq] at hm1; exact hm1
  · exact absurd (firstIndexOf_occursAt hm1) (hfirst m1 hlt)

/-- Claim C1: when the start pattern matches, the section's raw bounds (before
whitespace trimming) are: start immediately after the first match of the start
pattern in the entire text, and end immediately before the first match of the
stop pattern in the remainder after the start match (end of text when there is
no such match). -/
theorem extract_raw_bounds {σ : Type} (rt : StyledText σ) (sp tp : List Char) (m : Nat)
    (hm : occursAt sp rt.text m)
    (hfirst : ∀ j, j < m → ¬ occursAt sp rt.text j) :
    rawStartIdx rt.text sp = some (m + sp.length) ∧
    (∀ k, occursAt tp (rt.text.drop (m + sp.length)) k →
      (∀ j, j < k → ¬ occursAt tp (rt.text.drop (m + sp.length)) j) →
      rawEndIdx rt.text tp (m + sp.length) = m + sp.length + k) ∧
    ((∀ j, ¬ occursAt tp (rt.text.drop (m + sp.length)) j) →
      rawEndIdx rt.text tp (m + sp.length) = rt.text.length) := by
  refine ⟨?_, ?_, ?_⟩
  · unfold rawStartIdx
    rw [firstIndexOf_of_first hm hfirst]
    rfl
  · intro k hk hkfirst
    unfold rawEndIdx
    rw [firstIndexOf_of_first hk hkfirst]
  · intro hno
    unfold rawEndIdx
    rw [firstIndexOf_none_iff.mpr hno]

/-- Witness for C1 at a concrete input. -/
theorem extract_raw_bounds_witness :
    rawStartIdx ['x', 'x', 'A', 'B', ' ', 'y', 'C', 'D'] ['A', 'B'] = some 4 ∧
    rawEndIdx ['x', 'x', 'A', 'B', ' ', 'y', 'C', 'D'] ['C', 'D'] 4 = 6 :=
  have h := extract_raw_bounds (σ := Nat)
    { text := ['x', 'x', 'A', 'B', ' ', 'y', 'C', 'D'], runs := [] }
    ['A', 'B'] ['C', 'D'] 2 (by decide) (by decide)
  ⟨h.1, h.2.1 2 (by decide) (by decide)⟩

/-- When the start marker was found, emptiness of the final bounds is exactly
the crossing test of line 286 on the trimmed indices. -/
theorem finalBounds_none_of_some_start {text sp tp : List Char} {s0 : Nat}
    (hr : rawStartIdx text sp = some s0) :
    (finalBounds text sp tp = none ↔
      trimRight text (trimLeft text s0 (rawEndIdx text tp s0)) (rawEndIdx text tp s0) ≤
        trimLeft text s0 (rawEndIdx text tp s0)) := by
  unfold finalBounds
  rw [hr]
  show (if trimRight text (trimLeft text s0 (rawEndIdx text tp s0)) (rawEndIdx text tp s0) ≤
      trimLeft text s0 (rawEndIdx text tp s0) then none
    else some (trimLeft text s0 (rawEndIdx text tp s0),
      trimRight text (trimLeft text s0 (rawEndIdx text tp s0)) (rawEndIdx text tp s0)))
    = (none : Option (Nat × Nat)) ↔ _
  split
  · rename_i h
    simp [h]
  · rename_i h
    simp [h]

/-- Claim C2: the routine returns absent exactly when the start pattern has no
match in the source text, or every character of the raw span between the
markers is whitespace (which includes the empty span); in every other case it
returns a styled text, and the routine has no other failure outcome. -/
theorem extract_absent_iff {σ : Type} (rt : StyledText σ) (sp tp : List Char) :
    extractRichTextSection_ rt sp tp = none ↔
      (∀ j, ¬ occursAt sp rt.text j) ∨
      (∃ s0, rawStartIdx rt.text sp = some s0 ∧
        ∀ i, s0 ≤ i → i < rawEndIdx rt.text tp s0 →
          isSpace (charAt rt.text i) = true) := by
  rw [extract_none_iff_bounds]
  cases hr : rawStartIdx rt.text sp with
  | none =>
    unfold finalBounds
    rw [hr]
    have hfin : firstIndexOf sp rt.text = none := by
      unfold rawStartIdx at hr
      exact Option.map_eq_none'.mp hr
    constructor
    · intro _
      exact Or.inl (firstIndexOf_none_iff.mp hfin)
    · intro _
      rfl
  | some s0 =>
    have hocc : ¬ ∀ j, ¬ occursAt sp rt.text j := by
      intro hno
      have hnone : firstIndexOf sp rt.text = none := firstIndexOf_none_iff.mpr hno
      unfold rawStartIdx at hr
      rw [hnone] at hr
      cases hr
    have hs0len : s0 ≤ rt.text.length := rawStartIdx_le_length hr
    have hs0e0 : s0 ≤ rawEndIdx rt.text tp s0 := rawEndIdx_ge hs0len
    rw [finalBounds_none_of_some_start hr]
    constructor
    · intro hes
      right
      refine ⟨s0, rfl, ?_⟩
      intro i hi1 hi2
      by_cases hcase : i < trimLeft rt.text s0 (rawEndIdx rt.text tp s0)
      · exact trimLeft_spaces rt.text hi1 hcase
      · push_neg at hcase
        exact trimRight_spaces rt.text (Nat.le_trans hes hcase) hi2
    · intro hrhs
      rcases hrhs with hno | hsp
      · exact absurd hno hocc
      · obtain ⟨s0w, hrw, hsp⟩ := hsp
        obtain rfl := Option.some.inj hrw
        have hL : trimLeft rt.text s0 (rawEndIdx rt.text tp s0) = rawEndIdx rt.text tp s0 :=
          trimLeft_all rt.text hs0e0 hsp
        rw [hL]
        exact trimRight_le rt.text _ _

/-- A `dropWhile` drops exactly a prefix whose elements all satisfy the
predicate, up to the first failing element. -/
theorem dropWhile_eq_drop_of {p : Char → Bool} : ∀ (l : List Char) (k : Nat),
    k ≤ l.length →
    (∀ i, i < k → p (charAt l i) = true) →
    (k < l.length → p (charAt l k) = false) →
    l.dropWhile p = l.drop k := by
  intro l
  induction l with
  | nil =>
    intro k hk _ _
    have hk0 : k = 0 := by simp at hk; omega
    subst hk0
    rfl
  | cons c t ih =>
    intro k hk hall hstop
    cases k with
    | zero =>
      have hc : p c = false := by
        have := hstop (by simp)
        simpa [charAt] using this
      simp [List.dropWhile_cons, hc]
    | succ k1 =>
      have hc : p c = true := by
        have := hall 0 (by omega)
        simpa [charAt] using this
      have h1 : t.dropWhile p = t.drop k1 := by
        apply ih k1
        · simp at hk; omega
        · intro i hi
          have := hall (i + 1) (by omega)
          simpa [charAt, List.getD_cons_succ] using this
        · intro hlt
          have := hstop (by simp; omega)
          simpa [charAt, List.getD_cons_succ] using this
      simp [List.dropWhile_cons, hc, h1]

theorem charAt_drop {l : List Char} {s i : Nat} (h : s + i < l.length) :
    charAt (l.drop s) i = charAt l (s + i) := by
  unfold charAt
  rw [List.getD_eq_getElem _ _ (by simp [List.length_drop]; omega),
    List.getD_eq_getElem _ _ h]
  exact List.getElem_drop l

theorem charAt_reverse {l : List Char} {i : Nat} (h : i < l.length) :
    charAt l.reverse i = charAt l (l.length - 1 - i) := by
  unfold charAt
  rw [List.getD_eq_getElem _ _ (by simpa using h), List.getD_eq_getElem _ _ (by omega)]
  exact List.getElem_reverse _

/-- Trimming boundary whitespace from the tail starting at `s0` yields exactly
the slice `[s, e)` when `[s0, s)` and `[e, length)` are all whitespace and the
characters at `s` and `e - 1` are not. -/
theorem trimString_of_bounds {text : List Char} {s0 s e : Nat}
    (hs0 : s0 ≤ s) (hse : s < e) (hel : e ≤ text.length)
    (hleft : ∀ i, s0 ≤ i → i < s → isSpace (charAt text i) = true)
    (hsl : isSpace (charAt text s) = false)
    (hright : ∀ i, e ≤ i → i < text.length → isSpace (charAt text i) = true)
    (her : isSpace (charAt text (e - 1)) = false) :
    trimString (text.drop s0) = (text.take e).drop s := by
  have stepA : (text.drop s0).dropWhile (fun c => isSpace c) = text.drop s := by
    have h1 : (text.drop s0).dropWhile (fun c => isSpace c) = (text.drop s0).drop (s - s0) := by
      apply dropWhile_eq_drop_of
      · simp only [List.length_drop]; omega
      · intro i hi
        rw [charAt_drop (by omega)]
        exact hleft (s0 + i) (by omega) (by omega)
      · intro hlt
        rw [charAt_drop (by omega)]
        have heq : s0 + (s - s0) = s := by omega
        rw [heq]
        exact hsl
    rw [h1, List.drop_drop]
    congr 1
    omega
  have hL2 : (text.drop s).length = text.length - s := by simp
  have stepB : ((text.drop s).reverse).dropWhile (fun c => isSpace c) =
      ((text.take e).drop s).reverse := by
    have h1 : ((text.drop s).reverse).dropWhile (fun c => isSpace c) =
        ((text.drop s).reverse).drop (text.length - e) := by
      apply dropWhile_eq_drop_of
      · simp only [List.length_reverse, List.length_drop]; omega
      · intro i hi
        rw [charAt_reverse (by simp only [List.length_drop]; omega), hL2,
          charAt_drop (by omega)]
        exact hright (s + (text.length - s - 1 - i)) (by omega) (by omega)
      · intro hlt
        rw [charAt_reverse (by simp only [List.length_drop]; omega), hL2,
          charAt_drop (by omega)]
        have heq : s + (text.length - s - 1 - (text.length - e)) = e - 1 := by omega
        rw [heq]
        exact her
    have h2 : (text.drop s).take (e - s) = (text.take e).drop s := by
      have heq : s + (e - s) = e := by omega
      rw [List.take_drop, heq]
    rw [h1, ← h2, List.reverse_take]
    congr 1
    simp only [List.length_drop]
    omega
  unfold trimString
  rw [stepA, stepB, List.reverse_reverse]

/-- Claim C5: when the start pattern matches (at `m`) and the stop pattern has
no match in the remainder after the start match, and that remainder is not all
whitespace, the result is present and its text is exactly the source text from
just after the start match to the end of text, trimmed of boundary
whitespace. -/
theorem extract_no_stop_runs_to_end {σ : Type} (rt : StyledText σ) (sp tp : List Char)
    (m : Nat) (hm : firstIndexOf sp rt.text = some m)
    (hstop : ∀ j, ¬ occursAt tp (rt.text.drop (m + sp.length)) j)
    (hnonempty : ∃ i, i < rt.text.length ∧ m + sp.length ≤ i ∧
      isSpace (charAt rt.text i) = false) :
    ∃ res, extractRichTextSection_ rt sp tp = some res ∧
      res.text = trimString (rt.text.drop (m + sp.length)) := by
  have hr : rawStartIdx rt.text sp = some (m + sp.length) := by
    unfold rawStartIdx
    rw [hm]
    rfl
  have hs0len : m + sp.length ≤ rt.text.length := rawStartIdx_le_length hr
  have he0 : rawEndIdx rt.text tp (m + sp.length) = rt.text.length := by
    unfold rawEndIdx
    rw [firstIndexOf_none_iff.mpr hstop]
  obtain ⟨w, hwlen, hws0, hwns⟩ := hnonempty
  have hsw : trimLeft rt.text (m + sp.length) rt.text.length ≤ w := by
    by_contra hlt
    push_neg at hlt
    have := trimLeft_spaces rt.text hws0 hlt
    simp [hwns] at this
  have hew : w <
      trimRight rt.text (trimLeft rt.text (m + sp.length) rt.text.length) rt.text.length := by
    by_contra hle
    push_neg at hle
    have := trimRight_spaces rt.text hle hwlen
    simp [hwns] at this
  have hslt : trimLeft rt.text (m + sp.length) rt.text.length <
      trimRight rt.text (trimLeft rt.text (m + sp.length) rt.text.length) rt.text.length := by
    omega
  have hfb : finalBounds rt.text sp tp =
      some (trimLeft rt.text (m + sp.length) rt.text.length,
        trimRight rt.text (trimLeft rt.text (m + sp.length) rt.text.length)
          rt.text.length) := by
    unfold finalBounds
    rw [hr]
    show (if trimRight rt.text
          (trimLeft rt.text (m + sp.length) (rawEndIdx rt.text tp (m + sp.length)))
          (rawEndIdx rt.text tp (m + sp.length)) ≤
        trimLeft rt.text (m + sp.length) (rawEndIdx rt.text tp (m + sp.length)) then none
      else some (trimLeft rt.text (m + sp.length) (rawEndIdx rt.text tp (m + sp.length)),
        trimRight rt.text
          (trimLeft rt.text (m + sp.length) (rawEndIdx rt.text tp (m + sp.length)))
          (rawEndIdx rt.text tp (m + sp.length)))) = _
    rw [he0, if_neg (by omega)]
  refine ⟨_, extract_of_bounds hfb, ?_⟩
  show (rt.text.take
      (trimRight rt.text (trimLeft rt.text (m + sp.length) rt.text.length)
        rt.text.length)).drop (trimLeft rt.text (m + sp.length) rt.text.length) =
    trimString (rt.text.drop (m + sp.length))
  symm
  apply trimString_of_bounds (trimLeft_ge rt.text (m + sp.length) rt.text.length) hslt
    (trimRight_le rt.text _ _)
  · intro i hi1 hi2
    exact trimLeft_spaces rt.text hi1 hi2
  · exact trimLeft_stop rt.text (by omega)
  · intro i hi1 hi2
    exact trimRight_spaces rt.text hi1 hi2
  · exact trimRight_stop rt.text hslt

/-- Witness for C5 at a concrete input. -/
theorem extract_no_stop_runs_to_end_witness :
    ∃ res,
      extractRichTextSection_ (σ := Nat)
        { text := ['A', 'B', ' ', 'h', 'i', ' '], runs := [] } ['A', 'B'] ['Q'] = some res ∧
      res.text = trimString ((['A', 'B', ' ', 'h', 'i', ' '] : List Char).drop 2) :=
  extract_no_stop_runs_to_end
    { text := ['A', 'B', ' ', 'h', 'i', ' '], runs := [] } ['A', 'B'] ['Q'] 0
    (by decide)
    (firstIndexOf_none_iff.mp (by decide))
    ⟨3, by decide⟩
